import Mathlib

/-!
Shallow embedding of the snooker scoreboard state logic of `src/index.tsx`.

The program keeps a `GameState` (an ordered list of players plus the id of the
player whose turn it is) and a linear undo history of previous `GameState`
snapshots.  Each user action is one of the handlers `handlePot`, `handleFoul`,
`handlePlayerSelect`, `handleAddPlayer`, `handleRemovePlayer`,
`handleNameChange` (reached through the panel's name-update logic, which trims
the input and drops blank names), `handleNewGame` and `handleUndo`.

JavaScript numbers are embedded as `Nat` (all quantities in the program are
non-negative integers); array indices that the source computes with the
JavaScript `%` remainder are embedded as `Int` with `Int.tmod`, and an access
`arr[i]` that would yield `undefined` (and hence a thrown `TypeError` when its
`.id` field is read) is embedded as `Option.none`.  Handlers that can throw
this way return `Option GameState`.
-/

namespace Snooker

structure Player where
  id : Nat
  name : String
  score : Nat
  brk : Nat
  rank : Option Nat
deriving DecidableEq, Repr

structure GameState where
  players : List Player
  currentPlayerId : Nat
deriving DecidableEq, Repr

/-- The component state: current `gameState` plus the undo history
(oldest snapshot first, as in the source's `history` array). -/
structure Config where
  gameState : GameState
  history : List GameState
deriving DecidableEq, Repr

/-- JavaScript `String.prototype.trim`: remove whitespace from both ends. -/
def jsTrim (s : String) : String :=
  ((s.data.dropWhile Char.isWhitespace).reverse.dropWhile Char.isWhitespace).reverse.asString

/-- Index of the first element satisfying `pred`, if any. -/
def findIdxOpt (pred : Player → Bool) : List Player → Option Nat
  | [] => none
  | p :: ps => if pred p then some 0 else (findIdxOpt pred ps).map (fun n => n + 1)

/-- JavaScript `Array.prototype.findIndex`: first matching index, `-1` if none. -/
def jsFindIndex (pred : Player → Bool) (l : List Player) : Int :=
  match findIdxOpt pred l with
  | some i => (i : Int)
  | none => -1

def initialPlayer1 : Player := { id := 1, name := "Player 1", score := 0, brk := 0, rank := none }

def initialPlayer2 : Player := { id := 2, name := "Player 2", score := 0, brk := 0, rank := none }

def initialGameState : GameState :=
  { players := [initialPlayer1, initialPlayer2], currentPlayerId := 1 }

def initConfig : Config := { gameState := initialGameState, history := [] }

/-- A three-player component state used as a concrete test vector. -/
def threePlayerConfig : Config :=
  ⟨⟨[initialPlayer1, initialPlayer2,
     { id := 3, name := "Player 3", score := 0, brk := 0, rank := none }], 1⟩, []⟩

/-- State update of `handlePot` (src/index.tsx:126-156): the current player's
score and break grow by `points`; on a break reaching 100 with no rank yet, the
next rank (max existing rank + 1, or 1 when none assigned) is assigned. -/
def handlePot (points : Nat) (prev : GameState) : GameState :=
  match prev.players.find? (fun p => p.id == prev.currentPlayerId) with
  | none => prev
  | some currentPlayer =>
    let newBreak := currentPlayer.brk + points
    let newRankForPlayer : Option Nat :=
      if 100 ≤ newBreak ∧ currentPlayer.rank = none then
        some ((prev.players.filterMap Player.rank).foldl max 0 + 1)
      else
        none
    let updatedPlayers := prev.players.map (fun p =>
      if p.id = prev.currentPlayerId then
        { p with score := p.score + points, brk := newBreak,
                 rank := match p.rank with
                         | some r => some r
                         | none => newRankForPlayer }
      else p)
    { prev with players := updatedPlayers }

/-- State update of `handleFoul` (src/index.tsx:158-178): the player at the
next rotation index receives the penalty, the current player's break resets.
`none` models the `TypeError` thrown on an empty player array. -/
def handleFoul (foulValue : Nat) (prev : GameState) : Option GameState :=
  let currentPlayerIndex : Int := jsFindIndex (fun p => p.id == prev.currentPlayerId) prev.players
  let nextPlayerIndex : Int := (currentPlayerIndex + 1) % (prev.players.length : Int)
  match prev.players[nextPlayerIndex.toNat]? with
  | none => none
  | some nextPlayer =>
    some { prev with players := prev.players.map (fun p =>
      if p.id = nextPlayer.id then { p with score := p.score + foulValue }
      else if p.id = prev.currentPlayerId then { p with brk := 0 }
      else p) }

/-- State update of `handlePlayerSelect` (src/index.tsx:180-195) after the
early-return guard: the current player's break resets and the turn moves. -/
def handlePlayerSelectApply (selectedPlayerId : Nat) (prev : GameState) : GameState :=
  { players := prev.players.map (fun p =>
      if p.id = prev.currentPlayerId then { p with brk := 0 } else p),
    currentPlayerId := selectedPlayerId }

/-- `handleUndo` (src/index.tsx:197-203): restore the last snapshot, if any. -/
def handleUndo (c : Config) : Config :=
  match c.history.getLast? with
  | none => c
  | some lastState => { gameState := lastState, history := c.history.dropLast }

/-- State update of `handleNewGame` (src/index.tsx:205-221): zero every
player's score and break, clear ranks, give the turn to the first player. -/
def handleNewGame (prev : GameState) : GameState :=
  { players := prev.players.map (fun p => { p with score := 0, brk := 0, rank := none }),
    currentPlayerId := match prev.players with
                       | [] => 1
                       | p :: _ => p.id }

/-- State update of `handleAddPlayer` (src/index.tsx:223-234) after the
capacity guard: append a fresh player with id `max(existing ids) + 1`. -/
def handleAddPlayerApply (prev : GameState) : GameState :=
  let newId : Nat :=
    if 0 < prev.players.length then (prev.players.map Player.id).foldl max 0 + 1 else 1
  { prev with players := prev.players ++
      [{ id := newId, name := "Player " ++ toString newId, score := 0, brk := 0, rank := none }] }

/-- State update of `handleRemovePlayer` (src/index.tsx:236-252) after the
minimum-count guard.  The source computes `playerToRemoveIndex %
newPlayers.length` with the JavaScript remainder (`Int.tmod`); a negative
index or an out-of-range access models the thrown `TypeError` as `none`. -/
def handleRemovePlayerApply (idToRemove : Nat) (prev : GameState) : Option GameState :=
  let playerToRemoveIndex : Int := jsFindIndex (fun p => p.id == idToRemove) prev.players
  let newPlayers := prev.players.filter (fun p => p.id != idToRemove)
  if prev.currentPlayerId = idToRemove then
    let nextPlayerIndex : Int := Int.tmod playerToRemoveIndex (newPlayers.length : Int)
    if nextPlayerIndex < 0 then none
    else
      match newPlayers[nextPlayerIndex.toNat]? with
      | none => none
      | some nextPlayer =>
        some { prev with players := newPlayers, currentPlayerId := nextPlayer.id }
  else
    some { prev with players := newPlayers }

/-- State update of `handleNameChange` (src/index.tsx:254-260): replace the
name of the player with the given id. -/
def handleNameChange (id : Nat) (newName : String) (prev : GameState) : GameState :=
  { prev with players := prev.players.map (fun p =>
      if p.id = id then { p with name := newName } else p) }

/-- `saveToHistory` (src/index.tsx:97-99): push the current state. -/
def saveToHistory (c : Config) : Config :=
  { c with history := c.history ++ [c.gameState] }

/-- The user-visible operations of the scoreboard. -/
inductive Op where
  | pot (points : Nat)
  | foul (foulValue : Nat)
  | select (id : Nat)
  | addPlayer
  | removePlayer (id : Nat)
  | rename (id : Nat) (newName : String)
  | newGame
  | undo
deriving DecidableEq, Repr

/-- One user action on the full component state, combining each handler's
guards, its `saveToHistory` call, and its state update.  `rename` is the
panel's name-update path (src/index.tsx:345-352): the input is trimmed and a
blank result leaves everything untouched.  `none` models a thrown exception. -/
def step : Op → Config → Option Config
  | .pot points, c =>
      some { saveToHistory c with gameState := handlePot points c.gameState }
  | .foul v, c =>
      (handleFoul v c.gameState).map (fun s => { saveToHistory c with gameState := s })
  | .select id, c =>
      if id = c.gameState.currentPlayerId then some c
      else some { saveToHistory c with gameState := handlePlayerSelectApply id c.gameState }
  | .addPlayer, c =>
      if 8 ≤ c.gameState.players.length then some c
      else some { saveToHistory c with gameState := handleAddPlayerApply c.gameState }
  | .removePlayer id, c =>
      if c.gameState.players.length ≤ 2 then some c
      else (handleRemovePlayerApply id c.gameState).map
        (fun s => { saveToHistory c with gameState := s })
  | .rename id newName, c =>
      if (jsTrim newName) = "" then some c
      else some { saveToHistory c with gameState := handleNameChange id (jsTrim newName) c.gameState }
  | .newGame, c =>
      some { gameState := handleNewGame c.gameState, history := [] }
  | .undo, c =>
      some (handleUndo c)

/-- Run a sequence of operations; `none` as soon as one throws. -/
def runOps : List Op → Config → Option Config
  | [], c => some c
  | op :: ops, c =>
      match step op c with
      | none => none
      | some c2 => runOps ops c2

/-- The state-changing operations (everything except `newGame` and `undo`). -/
def Op.isMutating : Op → Bool
  | .newGame => false
  | .undo => false
  | _ => true

/-- An operation is rejected when its handler returns before `saveToHistory`:
selecting the already-current player, adding a ninth player, removing below
two players, or renaming to a blank string. -/
def rejectedB : Op → Config → Bool
  | .pot _, _ => false
  | .foul _, _ => false
  | .select id, c => id == c.gameState.currentPlayerId
  | .addPlayer, c => decide (8 ≤ c.gameState.players.length)
  | .removePlayer _, c => decide (c.gameState.players.length ≤ 2)
  | .rename _ newName, _ => (jsTrim newName) == ""
  | .newGame, _ => false
  | .undo, _ => false

/-- Structural well-formedness of a game state: between 2 and 8 players, with
pairwise distinct ids. -/
def StateOk (s : GameState) : Prop :=
  2 ≤ s.players.length ∧ s.players.length ≤ 8 ∧ (s.players.map Player.id).Nodup

/-- Well-formedness of the component state: the current state and every
snapshot in the history are well-formed. -/
def Inv (c : Config) : Prop :=
  StateOk c.gameState ∧ ∀ s ∈ c.history, StateOk s

/-- The list of assigned century-break ranks, in player order. -/
def ranksOf (ps : List Player) : List Nat := ps.filterMap Player.rank

/-- The assigned ranks form the set `{1, …, k}`: pairwise distinct and each
between 1 and the number of assigned ranks. -/
def RankSetContiguous (ps : List Player) : Prop :=
  (ranksOf ps).Nodup ∧ ∀ r ∈ ranksOf ps, 1 ≤ r ∧ r ≤ (ranksOf ps).length

instance (ps : List Player) : Decidable (RankSetContiguous ps) := by
  unfold RankSetContiguous
  infer_instance

/-- Operations that never delete a rank from the player list: everything
except `removePlayer` (which can drop a ranked player) and `undo` (which can
revert a rank assignment). -/
def Op.rankSafe : Op → Bool
  | .removePlayer _ => false
  | .undo => false
  | _ => true

/-- The removal operation — the only operation able to delete a rank entry
without restoring a previously valid state. -/
def Op.isRemove : Op → Bool
  | .removePlayer _ => true
  | _ => false

/-! ### Helper lemmas about folds, maps and indices -/

theorem foldl_max_init_le (l : List Nat) (a : Nat) : a ≤ l.foldl max a := by
  induction l generalizing a with
  | nil => exact Nat.le_refl a
  | cons x t ih =>
      rw [List.foldl_cons]
      exact le_trans (Nat.le_max_left a x) (ih (max a x))

theorem mem_le_foldl_max {x : Nat} {l : List Nat} (a : Nat) (hx : x ∈ l) :
    x ≤ l.foldl max a := by
  induction l generalizing a with
  | nil => cases hx
  | cons y t ih =>
      rw [List.foldl_cons]
      rcases List.mem_cons.mp hx with h | h
      · subst h
        exact le_trans (Nat.le_max_right a x) (foldl_max_init_le t _)
      · exact ih _ h

theorem foldl_max_le {B : Nat} {l : List Nat} (a : Nat) (ha : a ≤ B)
    (h : ∀ x ∈ l, x ≤ B) : l.foldl max a ≤ B := by
  induction l generalizing a with
  | nil => exact ha
  | cons y t ih =>
      rw [List.foldl_cons]
      exact ih _ (max_le ha (h y (List.mem_cons_self y t)))
        (fun x hx => h x (List.mem_cons_of_mem _ hx))

theorem ids_map_of_preserve {f : Player → Player} (hf : ∀ p, (f p).id = p.id)
    (l : List Player) : (l.map f).map Player.id = l.map Player.id := by
  rw [List.map_map]
  exact List.map_congr_left (fun p _ => hf p)

theorem ranksOf_map_of_preserve {f : Player → Player} (hf : ∀ p, (f p).rank = p.rank)
    (l : List Player) : ranksOf (l.map f) = ranksOf l := by
  have hcomp : Player.rank ∘ f = Player.rank := funext hf
  unfold ranksOf
  rw [List.filterMap_map, hcomp]

theorem id_index_inj {l : List Player} (hnd : (l.map Player.id).Nodup)
    {i j : Nat} {a b : Player} (ha : l[i]? = some a) (hb : l[j]? = some b)
    (hab : a.id = b.id) : i = j := by
  obtain ⟨hi, ha2⟩ := List.getElem?_eq_some_iff.mp ha
  obtain ⟨hj, hb2⟩ := List.getElem?_eq_some_iff.mp hb
  have hi2 : i < (l.map Player.id).length := by simpa using hi
  have hj2 : j < (l.map Player.id).length := by simpa using hj
  have hEq : (l.map Player.id)[i] = (l.map Player.id)[j] := by
    rw [List.getElem_map, List.getElem_map, ha2, hb2, hab]
  exact (List.Nodup.getElem_inj_iff hnd).mp hEq

theorem mem_of_index {l : List Player} {i : Nat} {a : Player}
    (ha : l[i]? = some a) : a ∈ l := by
  obtain ⟨hi, ha2⟩ := List.getElem?_eq_some_iff.mp ha
  exact ha2 ▸ List.getElem_mem hi

theorem findIdxOpt_eq_some {l : List Player} {x i : Nat} {pi : Player}
    (hnd : (l.map Player.id).Nodup) (hget : l[i]? = some pi) (hx : pi.id = x) :
    findIdxOpt (fun p => p.id == x) l = some i := by
  induction l generalizing i with
  | nil => simp at hget
  | cons a t ih =>
      rw [List.map_cons, List.nodup_cons] at hnd
      obtain ⟨ha, ht⟩ := hnd
      cases i with
      | zero =>
          rw [List.getElem?_cons_zero, Option.some_inj] at hget
          subst hget
          simp [findIdxOpt, hx]
      | succ n =>
          rw [List.getElem?_cons_succ] at hget
          have hmem : pi ∈ t := mem_of_index hget
          have hane : (a.id == x) = false := by
            rw [beq_eq_false_iff_ne]
            intro heq
            exact ha (heq ▸ hx ▸ List.mem_map_of_mem Player.id hmem)
          simp [findIdxOpt, hane, ih ht hget]

theorem find?_append_left_none {pred : Player → Bool} {l₁ : List Player} (l₂ : List Player)
    (h : ∀ p ∈ l₁, pred p = false) :
    List.find? pred (l₁ ++ l₂) = List.find? pred l₂ := by
  induction l₁ with
  | nil => rfl
  | cons a t ih =>
      rw [List.cons_append, List.find?_cons_of_neg _ (by simp [h a (List.mem_cons_self a t)])]
      exact ih (fun p hp => h p (List.mem_cons_of_mem _ hp))

theorem map_if_id_of_ne {g : Player → Player} {cid : Nat} (l : List Player)
    (h : ∀ p ∈ l, p.id ≠ cid) :
    l.map (fun p => if p.id = cid then g p else p) = l := by
  have hcongr : ∀ p ∈ l, (fun p => if p.id = cid then g p else p) p = id p := by
    intro p hp
    simp [h p hp]
  rw [List.map_congr_left hcongr, List.map_id]

theorem map_update_split {g : Player → Player} {cid : Nat} (l₁ l₂ : List Player) (cp : Player)
    (h1 : ∀ p ∈ l₁, p.id ≠ cid) (h2 : ∀ p ∈ l₂, p.id ≠ cid) (hcp : cp.id = cid) :
    (l₁ ++ cp :: l₂).map (fun p => if p.id = cid then g p else p) = l₁ ++ g cp :: l₂ := by
  rw [List.map_append, List.map_cons, if_pos hcp, map_if_id_of_ne l₁ h1, map_if_id_of_ne l₂ h2]

theorem nodup_ids_split {l₁ l₂ : List Player} {cp : Player}
    (hnd : ((l₁ ++ cp :: l₂).map Player.id).Nodup) :
    (∀ p ∈ l₁, p.id ≠ cp.id) ∧ (∀ p ∈ l₂, p.id ≠ cp.id) := by
  rw [List.map_append, List.map_cons, List.nodup_append] at hnd
  obtain ⟨h1, h2, hdisj⟩ := hnd
  rw [List.nodup_cons] at h2
  constructor
  · intro p hp heq
    exact hdisj (List.mem_map_of_mem Player.id hp) (by simp [heq])
  · intro p hp heq
    exact h2.1 (heq ▸ List.mem_map_of_mem Player.id hp)

theorem filter_ne_eq_eraseIdx {l : List Player} {i : Nat} {pi : Player}
    (hnd : (l.map Player.id).Nodup) (hget : l[i]? = some pi) :
    l.filter (fun p => p.id != pi.id) = l.eraseIdx i := by
  induction l generalizing i with
  | nil => simp at hget
  | cons a t ih =>
      rw [List.map_cons, List.nodup_cons] at hnd
      obtain ⟨ha, ht⟩ := hnd
      cases i with
      | zero =>
          rw [List.getElem?_cons_zero, Option.some_inj] at hget
          subst hget
          rw [List.eraseIdx_cons_zero, List.filter_cons]
          rw [if_neg (by simp)]
          exact List.filter_eq_self.mpr (fun p hp => by
            rw [bne_iff_ne]
            intro heq
            exact ha (heq ▸ List.mem_map_of_mem Player.id hp))
      | succ n =>
          rw [List.getElem?_cons_succ] at hget
          have hmem : pi ∈ t := mem_of_index hget
          have hane : (a.id != pi.id) = true := by
            rw [bne_iff_ne]
            intro heq
            exact ha (heq ▸ List.mem_map_of_mem Player.id hmem)
          rw [List.eraseIdx_cons_succ, List.filter_cons, if_pos hane, ih ht hget]

theorem filter_ne_length_ge {l : List Player} {x : Nat}
    (hnd : (l.map Player.id).Nodup) :
    l.length - 1 ≤ (l.filter (fun p => p.id != x)).length := by
  induction l with
  | nil => simp
  | cons a t ih =>
      rw [List.map_cons, List.nodup_cons] at hnd
      obtain ⟨ha, ht⟩ := hnd
      rw [List.filter_cons]
      by_cases hax : a.id = x
      · have hkeep : t.filter (fun p => p.id != x) = t :=
          List.filter_eq_self.mpr (fun p hp => by
            rw [bne_iff_ne]
            intro heq
            exact ha (hax ▸ heq ▸ List.mem_map_of_mem Player.id hp))
        rw [if_neg (by simp [hax])]
        rw [hkeep]
        simp
      · rw [if_pos (by simp [hax])]
        have := ih ht
        simp only [List.length_cons]
        omega

theorem mem_of_index_state {l : List GameState} {i : Nat} {a : GameState}
    (ha : l[i]? = some a) : a ∈ l := by
  obtain ⟨hi, ha2⟩ := List.getElem?_eq_some_iff.mp ha
  exact ha2 ▸ List.getElem_mem hi

/-! ### Shape lemmas for the `Option`-valued handlers -/

theorem handleFoul_eq_some {v : Nat} {s s2 : GameState}
    (h : handleFoul v s = some s2) :
    ∃ f : Player → Player, (∀ p, (f p).id = p.id ∧ (f p).rank = p.rank) ∧
      s2.players = s.players.map f ∧ s2.currentPlayerId = s.currentPlayerId := by
  simp only [handleFoul] at h
  split at h
  · exact absurd h (by simp)
  · next nextPlayer heq =>
      rw [Option.some_inj] at h
      subst h
      refine ⟨_, ?_, rfl, rfl⟩
      intro p
      constructor
      · dsimp only
        split
        · rfl
        · split <;> rfl
      · dsimp only
        split
        · rfl
        · split <;> rfl

theorem handleRemove_eq_some {idr : Nat} {s s2 : GameState}
    (h : handleRemovePlayerApply idr s = some s2) :
    s2.players = s.players.filter (fun p => p.id != idr) := by
  simp only [handleRemovePlayerApply] at h
  split at h
  · split at h
    · exact absurd h (by simp)
    · split at h
      · exact absurd h (by simp)
      · next nextPlayer heq =>
          rw [Option.some_inj] at h
          subst h
          rfl
  · rw [Option.some_inj] at h
    subst h
    rfl

/-! ### Preservation of structural well-formedness -/

theorem stateOk_of_map {s : GameState} {f : Player → Player} (hid : ∀ p, (f p).id = p.id)
    (h : StateOk s) (cur : Nat) :
    StateOk { players := s.players.map f, currentPlayerId := cur } := by
  obtain ⟨h2, h8, hnd⟩ := h
  refine ⟨by simpa using h2, by simpa using h8, ?_⟩
  show ((s.players.map f).map Player.id).Nodup
  rw [ids_map_of_preserve hid]
  exact hnd

theorem stateOk_handlePot {pts : Nat} {s : GameState} (h : StateOk s) :
    StateOk (handlePot pts s) := by
  unfold handlePot
  split
  · exact h
  · exact stateOk_of_map
      (fun p => by by_cases hc : p.id = s.currentPlayerId <;> simp [hc]) h _

theorem stateOk_handleFoul {v : Nat} {s s2 : GameState}
    (hs : handleFoul v s = some s2) (h : StateOk s) : StateOk s2 := by
  obtain ⟨f, hf, hplayers, hcur⟩ := handleFoul_eq_some hs
  have : StateOk { players := s.players.map f, currentPlayerId := s2.currentPlayerId } :=
    stateOk_of_map (fun p => (hf p).1) h _
  obtain ⟨a, b, c⟩ := this
  exact ⟨by rw [hplayers]; exact a, by rw [hplayers]; exact b, by rw [hplayers]; exact c⟩

theorem stateOk_select {id : Nat} {s : GameState} (h : StateOk s) :
    StateOk (handlePlayerSelectApply id s) := by
  unfold handlePlayerSelectApply
  exact stateOk_of_map
    (fun p => by by_cases hc : p.id = s.currentPlayerId <;> simp [hc]) h _

theorem stateOk_rename {id : Nat} {nm : String} {s : GameState} (h : StateOk s) :
    StateOk (handleNameChange id nm s) := by
  unfold handleNameChange
  exact stateOk_of_map
    (fun p => by by_cases hc : p.id = id <;> simp [hc]) h _

theorem stateOk_newGame {s : GameState} (h : StateOk s) :
    StateOk (handleNewGame s) := by
  unfold handleNewGame
  exact @stateOk_of_map s (fun p => { p with score := 0, brk := 0, rank := none })
    (fun p => rfl) h _

theorem stateOk_add {s : GameState} (hlt : s.players.length < 8) (h : StateOk s) :
    StateOk (handleAddPlayerApply s) := by
  obtain ⟨h2, _, hnd⟩ := h
  unfold handleAddPlayerApply
  have hpos : 0 < s.players.length := by omega
  rw [if_pos hpos]
  refine ⟨?_, ?_, ?_⟩
  · simp only [List.length_append, List.length_singleton]
    omega
  · simp only [List.length_append, List.length_singleton]
    omega
  · rw [List.map_append, List.nodup_append]
    refine ⟨hnd, List.nodup_singleton _, ?_⟩
    intro x hx hx2
    rw [List.map_singleton, List.mem_singleton] at hx2
    have hle : x ≤ (s.players.map Player.id).foldl max 0 := mem_le_foldl_max 0 hx
    simp at hx2
    omega

theorem stateOk_remove {idr : Nat} {s s2 : GameState} (hgt : 2 < s.players.length)
    (hs : handleRemovePlayerApply idr s = some s2) (h : StateOk s) : StateOk s2 := by
  obtain ⟨h2, h8, hnd⟩ := h
  have hplayers := handleRemove_eq_some hs
  refine ⟨?_, ?_, ?_⟩
  · rw [hplayers]
    have := filter_ne_length_ge (l := s.players) (x := idr) hnd
    omega
  · rw [hplayers]
    have := List.length_filter_le (fun p => p.id != idr) s.players
    omega
  · rw [hplayers]
    exact List.Nodup.sublist (List.Sublist.map Player.id (List.filter_sublist _)) hnd

theorem inv_push {c : Config} (hInv : Inv c) {s2 : GameState} (h2 : StateOk s2) :
    Inv { gameState := s2, history := c.history ++ [c.gameState] } := by
  refine ⟨h2, ?_⟩
  intro s hs
  rcases List.mem_append.mp hs with h | h
  · exact hInv.2 s h
  · rw [List.mem_singleton] at h
    subst h
    exact hInv.1

theorem inv_step {op : Op} {c c2 : Config} (hInv : Inv c) (h : step op c = some c2) :
    Inv c2 := by
  cases op with
  | pot points =>
      simp only [step] at h
      rw [Option.some_inj] at h
      subst h
      exact inv_push hInv (stateOk_handlePot hInv.1)
  | foul v =>
      simp only [step] at h
      rw [Option.map_eq_some'] at h
      obtain ⟨s2g, hs2, h⟩ := h
      subst h
      exact inv_push hInv (stateOk_handleFoul hs2 hInv.1)
  | select id =>
      simp only [step] at h
      split at h
      · rw [Option.some_inj] at h
        subst h
        exact hInv
      · rw [Option.some_inj] at h
        subst h
        exact inv_push hInv (stateOk_select hInv.1)
  | addPlayer =>
      simp only [step] at h
      split at h
      · rw [Option.some_inj] at h
        subst h
        exact hInv
      · next hguard =>
          rw [Option.some_inj] at h
          subst h
          exact inv_push hInv (stateOk_add (by omega) hInv.1)
  | removePlayer id =>
      simp only [step] at h
      split at h
      · rw [Option.some_inj] at h
        subst h
        exact hInv
      · next hguard =>
          rw [Option.map_eq_some'] at h
          obtain ⟨s2g, hs2, h⟩ := h
          subst h
          exact inv_push hInv (stateOk_remove (by omega) hs2 hInv.1)
  | rename id nm =>
      simp only [step] at h
      split at h
      · rw [Option.some_inj] at h
        subst h
        exact hInv
      · rw [Option.some_inj] at h
        subst h
        exact inv_push hInv (stateOk_rename hInv.1)
  | newGame =>
      simp only [step] at h
      rw [Option.some_inj] at h
      subst h
      refine ⟨stateOk_newGame hInv.1, ?_⟩
      intro s hs
      simp at hs
  | undo =>
      simp only [step] at h
      rw [Option.some_inj] at h
      subst h
      unfold handleUndo
      split
      · exact hInv
      · next lastState heq =>
          refine ⟨?_, ?_⟩
          · rw [List.getLast?_eq_getElem?] at heq
            exact hInv.2 lastState (mem_of_index_state heq)
          · intro s hs
            exact hInv.2 s ((List.dropLast_sublist c.history).subset hs)

theorem inv_runOps {ops : List Op} {c c2 : Config} (hInv : Inv c)
    (h : runOps ops c = some c2) : Inv c2 := by
  induction ops generalizing c with
  | nil =>
      simp only [runOps] at h
      rw [Option.some_inj] at h
      subst h
      exact hInv
  | cons op ops ih =>
      simp only [runOps] at h
      split at h
      · exact absurd h (by simp)
      · next c1 hstep => exact ih (inv_step hInv hstep) h

/-- Full characterization of a pot when the current player resolves uniquely:
only that player's record changes, as the source's `updatedPlayers` map. -/
theorem handlePot_eq {pts : Nat} {s : GameState} {cp : Player} {l₁ l₂ : List Player}
    (hsplit : s.players = l₁ ++ cp :: l₂)
    (hcp : cp.id = s.currentPlayerId)
    (hnd : (s.players.map Player.id).Nodup) :
    handlePot pts s =
      { players := l₁ ++ ({ cp with
          score := cp.score + pts,
          brk := cp.brk + pts,
          rank := match cp.rank with
                  | some r => some r
                  | none =>
                      if 100 ≤ cp.brk + pts ∧ cp.rank = none
                      then some ((s.players.filterMap Player.rank).foldl max 0 + 1)
                      else none }) :: l₂,
        currentPlayerId := s.currentPlayerId } := by
  obtain ⟨h1, h2⟩ := nodup_ids_split (hsplit ▸ hnd)
  have hfind : s.players.find? (fun p => p.id == s.currentPlayerId) = some cp := by
    rw [hsplit, find?_append_left_none _ (fun p hp => by
      rw [beq_eq_false_iff_ne, ← hcp]
      exact h1 p hp)]
    exact List.find?_cons_of_pos _ (by simp [hcp])
  have h1c : ∀ p ∈ l₁, p.id ≠ s.currentPlayerId := fun p hp => hcp ▸ h1 p hp
  have h2c : ∀ p ∈ l₂, p.id ≠ s.currentPlayerId := fun p hp => hcp ▸ h2 p hp
  unfold handlePot
  rw [hfind]
  dsimp only
  rw [show s.players.map _ = _ from hsplit ▸ map_update_split l₁ l₂ cp h1c h2c hcp]

theorem inv_initConfig : Inv initConfig := by
  refine ⟨?_, ?_⟩
  · exact ⟨by decide, by decide, by decide⟩
  · intro s hs
    simp [initConfig] at hs

/-! ### Preservation of rank contiguity -/

theorem rankSet_of_perm_parts {A B : List Nat} (hperm : A.Perm B)
    (hnd : B.Nodup) (hbd : ∀ r ∈ B, 1 ≤ r ∧ r ≤ B.length) :
    A.Nodup ∧ ∀ r ∈ A, 1 ≤ r ∧ r ≤ A.length := by
  refine ⟨hperm.nodup_iff.mpr hnd, ?_⟩
  intro r hr
  rw [hperm.length_eq]
  exact hbd r (hperm.mem_iff.mp hr)

theorem contiguous_cons_max {R : List Nat}
    (hnd : R.Nodup) (hbd : ∀ r ∈ R, 1 ≤ r ∧ r ≤ R.length) :
    ((R.foldl max 0 + 1) :: R).Nodup ∧
    ∀ r ∈ (R.foldl max 0 + 1) :: R, 1 ≤ r ∧ r ≤ ((R.foldl max 0 + 1) :: R).length := by
  constructor
  · rw [List.nodup_cons]
    refine ⟨?_, hnd⟩
    intro hmem
    have := mem_le_foldl_max 0 hmem
    omega
  · intro r hr
    rw [List.length_cons]
    rcases List.mem_cons.mp hr with h | h
    · subst h
      have hM : R.foldl max 0 ≤ R.length :=
        foldl_max_le 0 (Nat.zero_le _) (fun x hx => (hbd x hx).2)
      omega
    · have := hbd r h
      omega

theorem rank_handlePot {pts : Nat} {s : GameState}
    (hnd : (s.players.map Player.id).Nodup)
    (hRank : RankSetContiguous s.players) :
    RankSetContiguous (handlePot pts s).players := by
  cases hfind : s.players.find? (fun p => p.id == s.currentPlayerId) with
  | none =>
      unfold handlePot
      rw [hfind]
      exact hRank
  | some cp =>
      have hcp : cp.id = s.currentPlayerId := by simpa using List.find?_some hfind
      have hmem : cp ∈ s.players := List.mem_of_find?_eq_some hfind
      obtain ⟨l₁, l₂, hsplit⟩ := List.append_of_mem hmem
      rw [handlePot_eq hsplit hcp hnd, hsplit]
      have hold : RankSetContiguous (l₁ ++ cp :: l₂) := hsplit ▸ hRank
      rcases hcpr : cp.rank with _ | r
      · by_cases h100 : 100 ≤ cp.brk + pts
        · -- a new rank `max + 1` is assigned to `cp`
          have hfm : (l₁ ++ cp :: l₂).filterMap Player.rank =
              l₁.filterMap Player.rank ++ l₂.filterMap Player.rank := by
            rw [List.filterMap_append, List.filterMap_cons, hcpr]
          have holdR : (l₁.filterMap Player.rank ++ l₂.filterMap Player.rank).Nodup ∧
              ∀ r ∈ l₁.filterMap Player.rank ++ l₂.filterMap Player.rank,
                1 ≤ r ∧ r ≤ (l₁.filterMap Player.rank ++ l₂.filterMap Player.rank).length := by
            unfold RankSetContiguous ranksOf at hold
            rw [hfm] at hold
            exact hold
          have hcm := contiguous_cons_max holdR.1 holdR.2
          unfold RankSetContiguous ranksOf
          rw [List.filterMap_append, List.filterMap_cons]
          simp only [hcpr, hfm, h100, and_true, if_true, true_and]
          exact rankSet_of_perm_parts List.perm_middle hcm.1 hcm.2
        · -- break below 100: no rank assigned, rank list unchanged
          have hfm : (l₁ ++ cp :: l₂).filterMap Player.rank =
              l₁.filterMap Player.rank ++ l₂.filterMap Player.rank := by
            rw [List.filterMap_append, List.filterMap_cons, hcpr]
          unfold RankSetContiguous ranksOf at hold ⊢
          rw [List.filterMap_append, List.filterMap_cons]
          simp only [hcpr, h100, and_true, if_false]
          rw [hfm] at hold
          exact hold
      · -- `cp` already ranked: its rank entry is kept in place
        have hfm : (l₁ ++ cp :: l₂).filterMap Player.rank =
            l₁.filterMap Player.rank ++ r :: l₂.filterMap Player.rank := by
          rw [List.filterMap_append, List.filterMap_cons, hcpr]
        unfold RankSetContiguous ranksOf at hold ⊢
        rw [List.filterMap_append, List.filterMap_cons]
        simp only [hcpr]
        rw [hfm] at hold
        exact hold

theorem rank_handleFoul {v : Nat} {s s2 : GameState}
    (hs : handleFoul v s = some s2) (hRank : RankSetContiguous s.players) :
    RankSetContiguous s2.players := by
  obtain ⟨f, hf, hplayers, _⟩ := handleFoul_eq_some hs
  unfold RankSetContiguous
  rw [hplayers, ranksOf_map_of_preserve (fun p => (hf p).2)]
  exact hRank

theorem rank_select {id : Nat} {s : GameState} (hRank : RankSetContiguous s.players) :
    RankSetContiguous (handlePlayerSelectApply id s).players := by
  unfold RankSetContiguous handlePlayerSelectApply
  rw [ranksOf_map_of_preserve
    (fun p => by by_cases hc : p.id = s.currentPlayerId <;> simp [hc])]
  exact hRank

theorem rank_rename {id : Nat} {nm : String} {s : GameState}
    (hRank : RankSetContiguous s.players) :
    RankSetContiguous (handleNameChange id nm s).players := by
  unfold RankSetContiguous handleNameChange
  rw [ranksOf_map_of_preserve (fun p => by by_cases hc : p.id = id <;> simp [hc])]
  exact hRank

theorem filterMap_none_eq_nil (l : List Player) :
    l.filterMap (fun _ => (none : Option Nat)) = [] := by
  induction l with
  | nil => rfl
  | cons a t ih => rw [List.filterMap_cons]; exact ih

theorem rank_newGame {s : GameState} :
    RankSetContiguous (handleNewGame s).players := by
  unfold RankSetContiguous handleNewGame ranksOf
  have h : (s.players.map (fun p =>
      { p with score := 0, brk := 0, rank := none })).filterMap Player.rank = [] := by
    rw [List.filterMap_map]
    exact filterMap_none_eq_nil s.players
  rw [h]
  exact ⟨List.nodup_nil, by simp⟩

theorem rank_add {s : GameState} (hRank : RankSetContiguous s.players) :
    RankSetContiguous (handleAddPlayerApply s).players := by
  unfold RankSetContiguous ranksOf at hRank
  unfold RankSetContiguous ranksOf
  simp only [handleAddPlayerApply]
  rw [List.filterMap_append, List.filterMap_cons]
  simpa using hRank

theorem rankHist_push {c : Config} (hRank : RankSetContiguous c.gameState.players)
    (hHist : ∀ s ∈ c.history, RankSetContiguous s.players) :
    ∀ s ∈ c.history ++ [c.gameState], RankSetContiguous s.players := by
  intro s hs
  rcases List.mem_append.mp hs with h | h
  · exact hHist s h
  · rw [List.mem_singleton] at h
    subst h
    exact hRank

/-- One step of any operation other than `removePlayer` — `undo` included —
keeps both the current state's rank set and every history snapshot's rank set
contiguous: `undo` merely restores a snapshot that was itself contiguous. -/
theorem rankInv_step {op : Op} {c c2 : Config} (hrem : op.isRemove = false)
    (hnd : (c.gameState.players.map Player.id).Nodup)
    (hRank : RankSetContiguous c.gameState.players)
    (hHist : ∀ s ∈ c.history, RankSetContiguous s.players)
    (h : step op c = some c2) :
    RankSetContiguous c2.gameState.players ∧
      ∀ s ∈ c2.history, RankSetContiguous s.players := by
  cases op with
  | pot pts =>
      simp only [step] at h
      rw [Option.some_inj] at h
      subst h
      exact ⟨rank_handlePot hnd hRank, rankHist_push hRank hHist⟩
  | foul v =>
      simp only [step] at h
      rw [Option.map_eq_some'] at h
      obtain ⟨s2, hs2, h⟩ := h
      subst h
      exact ⟨rank_handleFoul hs2 hRank, rankHist_push hRank hHist⟩
  | select id =>
      simp only [step] at h
      split at h
      · rw [Option.some_inj] at h
        subst h
        exact ⟨hRank, hHist⟩
      · rw [Option.some_inj] at h
        subst h
        exact ⟨rank_select hRank, rankHist_push hRank hHist⟩
  | addPlayer =>
      simp only [step] at h
      split at h
      · rw [Option.some_inj] at h
        subst h
        exact ⟨hRank, hHist⟩
      · rw [Option.some_inj] at h
        subst h
        exact ⟨rank_add hRank, rankHist_push hRank hHist⟩
  | removePlayer id => simp [Op.isRemove] at hrem
  | rename id nm =>
      simp only [step] at h
      split at h
      · rw [Option.some_inj] at h
        subst h
        exact ⟨hRank, hHist⟩
      · rw [Option.some_inj] at h
        subst h
        exact ⟨rank_rename hRank, rankHist_push hRank hHist⟩
  | newGame =>
      simp only [step] at h
      rw [Option.some_inj] at h
      subst h
      refine ⟨rank_newGame, ?_⟩
      intro s hs
      simp at hs
  | undo =>
      simp only [step] at h
      rw [Option.some_inj] at h
      subst h
      unfold handleUndo
      split
      · exact ⟨hRank, hHist⟩
      · next lastState heq =>
          refine ⟨?_, ?_⟩
          · rw [List.getLast?_eq_getElem?] at heq
            exact hHist lastState (mem_of_index_state heq)
          · intro s hs
            exact hHist s ((List.dropLast_sublist c.history).subset hs)

theorem rankInv_runOps {ops : List Op} {c c2 : Config} (hInv : Inv c)
    (hRank : RankSetContiguous c.gameState.players)
    (hHist : ∀ s ∈ c.history, RankSetContiguous s.players)
    (hrem : ∀ op ∈ ops, op.isRemove = false)
    (h : runOps ops c = some c2) : RankSetContiguous c2.gameState.players := by
  induction ops generalizing c with
  | nil =>
      simp only [runOps] at h
      rw [Option.some_inj] at h
      subst h
      exact hRank
  | cons op ops ih =>
      simp only [runOps] at h
      split at h
      · exact absurd h (by simp)
      · next c1 hstep =>
          have hri := rankInv_step (hrem op (List.mem_cons_self op ops))
            hInv.1.2.2 hRank hHist hstep
          exact ih (inv_step hInv hstep) hri.1 hri.2
            (fun o ho => hrem o (List.mem_cons_of_mem _ ho)) h

theorem rank_entry_step {op : Op} {c c2 : Config} (hsafe : op.rankSafe = true)
    (hng : op ≠ Op.newGame) (h : step op c = some c2) {p : Player}
    (hp : p ∈ c.gameState.players) {r : Nat} (hr : p.rank = some r) :
    ∃ q ∈ c2.gameState.players, q.id = p.id ∧ q.rank = some r := by
  cases op with
  | pot pts =>
      simp only [step] at h
      rw [Option.some_inj] at h
      subst h
      show ∃ q ∈ (handlePot pts c.gameState).players, _
      unfold handlePot
      split
      · exact ⟨p, hp, rfl, hr⟩
      · refine ⟨_, List.mem_map_of_mem _ hp, ?_, ?_⟩
        · by_cases hc : p.id = c.gameState.currentPlayerId <;> simp [hc]
        · by_cases hc : p.id = c.gameState.currentPlayerId <;> simp [hc, hr]
  | foul v =>
      simp only [step] at h
      rw [Option.map_eq_some'] at h
      obtain ⟨s2, hs2, h⟩ := h
      subst h
      obtain ⟨f, hf, hplayers, _⟩ := handleFoul_eq_some hs2
      refine ⟨f p, ?_, (hf p).1, (hf p).2.trans hr⟩
      show f p ∈ s2.players
      rw [hplayers]
      exact List.mem_map_of_mem f hp
  | select id =>
      simp only [step] at h
      split at h
      · rw [Option.some_inj] at h
        subst h
        exact ⟨p, hp, rfl, hr⟩
      · rw [Option.some_inj] at h
        subst h
        show ∃ q ∈ (handlePlayerSelectApply id c.gameState).players, _
        unfold handlePlayerSelectApply
        refine ⟨_, List.mem_map_of_mem _ hp, ?_, ?_⟩
        · by_cases hc : p.id = c.gameState.currentPlayerId <;> simp [hc]
        · by_cases hc : p.id = c.gameState.currentPlayerId <;> simp [hc, hr]
  | addPlayer =>
      simp only [step] at h
      split at h
      · rw [Option.some_inj] at h
        subst h
        exact ⟨p, hp, rfl, hr⟩
      · rw [Option.some_inj] at h
        subst h
        show ∃ q ∈ (handleAddPlayerApply c.gameState).players, _
        unfold handleAddPlayerApply
        exact ⟨p, List.mem_append_left _ hp, rfl, hr⟩
  | removePlayer id => simp [Op.rankSafe] at hsafe
  | rename id nm =>
      simp only [step] at h
      split at h
      · rw [Option.some_inj] at h
        subst h
        exact ⟨p, hp, rfl, hr⟩
      · rw [Option.some_inj] at h
        subst h
        show ∃ q ∈ (handleNameChange id ((jsTrim nm)) c.gameState).players, _
        unfold handleNameChange
        refine ⟨_, List.mem_map_of_mem _ hp, ?_, ?_⟩
        · by_cases hc : p.id = id <;> simp [hc]
        · by_cases hc : p.id = id <;> simp [hc, hr]
  | newGame => exact absurd rfl hng
  | undo => simp [Op.rankSafe] at hsafe

/-! ### Undo as an inverse -/

theorem tmod_natCast (a b : Nat) : Int.tmod (a : Int) (b : Int) = ((a % b : Nat) : Int) := rfl

theorem step_undo_of_push {c : Config} {g : GameState} :
    step Op.undo { gameState := g, history := c.history ++ [c.gameState] } = some c := by
  have h1 : (c.history ++ [c.gameState]).getLast? = some c.gameState :=
    List.getLast?_concat _
  simp only [step, handleUndo, h1, List.dropLast_concat]

/-! ### Claim theorems -/

/-- Claim C4: undo is a true inverse of every state-changing operation except
`newGame`: for every state and every non-rejected mutating operation among
pot, foul, select, addPlayer, removePlayer and rename, running the operation
and then `undo` restores exactly the pre-operation component state; and `undo`
with an empty history is a no-op. -/
theorem undo_inverse :
    (∀ (op : Op) (c c2 : Config), op.isMutating = true → rejectedB op c = false →
        step op c = some c2 → step Op.undo c2 = some c) ∧
    (∀ s : GameState, step Op.undo { gameState := s, history := [] } =
        some { gameState := s, history := [] }) := by
  constructor
  · intro op c c2 hm hr hs
    cases op with
    | pot points =>
        simp only [step] at hs
        rw [Option.some_inj] at hs
        subst hs
        exact step_undo_of_push
    | foul v =>
        simp only [step] at hs
        rw [Option.map_eq_some'] at hs
        obtain ⟨s2, _, hs⟩ := hs
        subst hs
        exact step_undo_of_push
    | select id =>
        simp only [rejectedB] at hr
        simp only [step] at hs
        rw [if_neg (by simpa using hr)] at hs
        rw [Option.some_inj] at hs
        subst hs
        exact step_undo_of_push
    | addPlayer =>
        simp only [rejectedB] at hr
        simp only [step] at hs
        rw [if_neg (of_decide_eq_false hr)] at hs
        rw [Option.some_inj] at hs
        subst hs
        exact step_undo_of_push
    | removePlayer id =>
        simp only [rejectedB] at hr
        simp only [step] at hs
        rw [if_neg (of_decide_eq_false hr)] at hs
        rw [Option.map_eq_some'] at hs
        obtain ⟨s2, _, hs⟩ := hs
        subst hs
        exact step_undo_of_push
    | rename id nm =>
        simp only [rejectedB] at hr
        simp only [step] at hs
        rw [if_neg (by simpa using hr)] at hs
        rw [Option.some_inj] at hs
        subst hs
        exact step_undo_of_push
    | newGame => simp [Op.isMutating] at hm
    | undo => simp [Op.isMutating] at hm
  · intro s
    rfl

theorem undo_inverse_witness :
    step Op.undo
      ⟨⟨[{ id := 1, name := "Player 1", score := 5, brk := 5, rank := none },
         initialPlayer2], 1⟩, [initialGameState]⟩ = some initConfig :=
  undo_inverse.1 (Op.pot 5) initConfig _ rfl rfl rfl

/-- Claim C5: starting from the initial two-player state, every reachable
state has between 2 and 8 players; adding at 8 players and removing at 2
players are rejected with the component state (including the history)
completely unchanged. -/
theorem players_length_invariant :
    (∀ (ops : List Op) (c : Config), runOps ops initConfig = some c →
        2 ≤ c.gameState.players.length ∧ c.gameState.players.length ≤ 8) ∧
    (∀ c : Config, c.gameState.players.length = 8 → step Op.addPlayer c = some c) ∧
    (∀ (c : Config) (id : Nat), c.gameState.players.length = 2 →
        step (Op.removePlayer id) c = some c) := by
  refine ⟨?_, ?_, ?_⟩
  · intro ops c h
    have hInv := inv_runOps inv_initConfig h
    exact ⟨hInv.1.1, hInv.1.2.1⟩
  · intro c h
    simp only [step]
    rw [if_pos (by omega)]
  · intro c id h
    simp only [step]
    rw [if_pos (by omega)]

theorem players_length_invariant_witness :
    2 ≤ initConfig.gameState.players.length ∧ initConfig.gameState.players.length ≤ 8 :=
  players_length_invariant.1 [] initConfig rfl

/-- Claim C6: `newGame` zeroes every player's score and break and clears every
rank while keeping ids, names, count and order; the first player (in that
preserved order) receives the turn; the history is emptied, so an immediately
following `undo` is a no-op. -/
theorem newGame_spec (c : Config) (p : Player) (rest : List Player)
    (hps : c.gameState.players = p :: rest) :
    step Op.newGame c =
      some ⟨⟨(p :: rest).map (fun q => { q with score := 0, brk := 0, rank := none }),
        p.id⟩, []⟩ ∧
    step Op.undo
        ⟨⟨(p :: rest).map (fun q => { q with score := 0, brk := 0, rank := none }),
          p.id⟩, []⟩ =
      some ⟨⟨(p :: rest).map (fun q => { q with score := 0, brk := 0, rank := none }),
        p.id⟩, []⟩ := by
  constructor
  · simp only [step, handleNewGame, hps]
  · rfl

theorem newGame_spec_witness :
    step Op.newGame initConfig =
      some ⟨⟨(initialPlayer1 :: [initialPlayer2]).map
          (fun q => { q with score := 0, brk := 0, rank := none }),
        initialPlayer1.id⟩, []⟩ ∧
    step Op.undo
        ⟨⟨(initialPlayer1 :: [initialPlayer2]).map
            (fun q => { q with score := 0, brk := 0, rank := none }),
          initialPlayer1.id⟩, []⟩ =
      some ⟨⟨(initialPlayer1 :: [initialPlayer2]).map
          (fun q => { q with score := 0, brk := 0, rank := none }),
        initialPlayer1.id⟩, []⟩ :=
  newGame_spec initConfig initialPlayer1 [initialPlayer2] rfl

/-- Claim C8 (amended): selecting the already-current id is a no-op; selecting
any other id — whether or not a player with that id exists, since the source
performs no existence check — resets the current player's break, sets
`currentPlayerId` to the given id, pushes the previous state onto the history
and changes nothing else. -/
theorem selectPlayer_spec (c : Config) (id : Nat) :
    (id = c.gameState.currentPlayerId → step (Op.select id) c = some c) ∧
    (id ≠ c.gameState.currentPlayerId →
      step (Op.select id) c = some
        ⟨⟨c.gameState.players.map (fun p =>
            if p.id = c.gameState.currentPlayerId then { p with brk := 0 } else p),
          id⟩, c.history ++ [c.gameState]⟩) := by
  constructor
  · intro h
    simp only [step]
    rw [if_pos h]
  · intro h
    simp only [step]
    rw [if_neg h]
    rfl

theorem selectPlayer_spec_witness :
    step (Op.select 5) initConfig = some
      ⟨⟨initConfig.gameState.players.map (fun p =>
          if p.id = initConfig.gameState.currentPlayerId then { p with brk := 0 } else p),
        5⟩, initConfig.history ++ [initConfig.gameState]⟩ :=
  (selectPlayer_spec initConfig 5).2 (by decide)

/-- Claim C8, refuting the claim as stated: selecting the nonexistent id 5
from the initial state is not a silent failure — it changes the state,
setting `currentPlayerId` to 5. -/
theorem selectPlayer_counterexample :
    initConfig.gameState.currentPlayerId = 1 ∧
    initConfig.gameState.players.map Player.id = [1, 2] ∧
    (step (Op.select 5) initConfig).map (fun c => c.gameState.currentPlayerId) = some 5 :=
  ⟨rfl, rfl, rfl⟩

/-- Claim C9 (amended): player ids are pairwise distinct in every reachable
state.  (The source does reuse removed ids: `addPlayer` assigns
`max(existing ids) + 1`, which equals a removed id whenever that id was the
maximum.) -/
theorem player_ids_nodup (ops : List Op) (c : Config)
    (h : runOps ops initConfig = some c) :
    (c.gameState.players.map Player.id).Nodup :=
  (inv_runOps inv_initConfig h).1.2.2

theorem player_ids_nodup_witness : (initConfig.gameState.players.map Player.id).Nodup :=
  player_ids_nodup [] initConfig rfl

/-- Claim C9, refuting the never-reused part as stated: after `addPlayer`
(creating id 3), `removePlayer 3`, a later `addPlayer` creates a player with
the removed id 3 again. -/
theorem id_reuse_counterexample :
    (runOps [Op.addPlayer] initConfig).map
        (fun c => c.gameState.players.map Player.id) = some [1, 2, 3] ∧
    (runOps [Op.addPlayer, Op.removePlayer 3] initConfig).map
        (fun c => c.gameState.players.map Player.id) = some [1, 2] ∧
    (runOps [Op.addPlayer, Op.removePlayer 3, Op.addPlayer] initConfig).map
        (fun c => c.gameState.players.map Player.id) = some [1, 2, 3] :=
  ⟨rfl, rfl, rfl⟩

/-- Claim C10: renaming trims the new name; a blank trimmed name makes the
whole action a no-op (the player keeps the original name and nothing is
recorded), otherwise exactly that player's name becomes the trimmed string
and everything else is unchanged. -/
theorem renamePlayer_spec (c : Config) (id : Nat) (newName : String) (cp : Player)
    (l₁ l₂ : List Player) (hsplit : c.gameState.players = l₁ ++ cp :: l₂)
    (hcp : cp.id = id) (hnd : (c.gameState.players.map Player.id).Nodup) :
    ((jsTrim newName) = "" → step (Op.rename id newName) c = some c) ∧
    ((jsTrim newName) ≠ "" → step (Op.rename id newName) c =
      some ⟨⟨l₁ ++ ({ cp with name := (jsTrim newName) }) :: l₂,
        c.gameState.currentPlayerId⟩, c.history ++ [c.gameState]⟩) := by
  obtain ⟨h1, h2⟩ := nodup_ids_split (hsplit ▸ hnd)
  constructor
  · intro h
    simp only [step]
    rw [if_pos h]
  · intro h
    simp only [step]
    rw [if_neg h]
    unfold handleNameChange
    rw [hsplit,
      map_update_split l₁ l₂ cp (fun p hp => hcp ▸ h1 p hp) (fun p hp => hcp ▸ h2 p hp) hcp]
    rfl

theorem renamePlayer_spec_witness :
    step (Op.rename 2 " Bob ") initConfig =
      some ⟨⟨[initialPlayer1] ++ ({ initialPlayer2 with name := jsTrim " Bob " }) :: [],
        initConfig.gameState.currentPlayerId⟩,
        initConfig.history ++ [initConfig.gameState]⟩ :=
  (renamePlayer_spec initConfig 2 " Bob " initialPlayer2 [initialPlayer1] [] rfl rfl
    (by decide)).2 (by decide)

/-- Claim C2: for a state whose `currentPlayerId` resolves (uniquely, ids
being distinct) to the player `cp` and a positive number of points, a pot adds
the points to `cp`'s score and break; when the new break reaches 100 and `cp`
has no rank, `cp` receives rank `max(assigned ranks) + 1` (so 1 when no rank
is assigned, the fold starting at 0); every other player and the turn are
unchanged. -/
theorem applyPot_spec (s : GameState) (points : Nat) (cp : Player) (l₁ l₂ : List Player)
    (_hpos : 0 < points) (hsplit : s.players = l₁ ++ cp :: l₂)
    (hcp : cp.id = s.currentPlayerId) (hnd : (s.players.map Player.id).Nodup) :
    handlePot points s =
      { players := l₁ ++ ({ cp with
          score := cp.score + points,
          brk := cp.brk + points,
          rank := if 100 ≤ cp.brk + points ∧ cp.rank = none
                  then some ((s.players.filterMap Player.rank).foldl max 0 + 1)
                  else cp.rank }) :: l₂,
        currentPlayerId := s.currentPlayerId } := by
  rw [handlePot_eq hsplit hcp hnd]
  rcases hcpr : cp.rank with _ | r
  · simp [hcpr]
  · simp [hcpr]

theorem applyPot_spec_witness :
    handlePot 100 initialGameState =
      { players := [] ++ ({ initialPlayer1 with
          score := initialPlayer1.score + 100,
          brk := initialPlayer1.brk + 100,
          rank := if 100 ≤ initialPlayer1.brk + 100 ∧ initialPlayer1.rank = none
                  then some ((initialGameState.players.filterMap Player.rank).foldl max 0 + 1)
                  else initialPlayer1.rank }) :: [initialPlayer2],
        currentPlayerId := initialGameState.currentPlayerId } :=
  applyPot_spec initialGameState 100 initialPlayer1 [] [initialPlayer2]
    (by decide) rfl rfl (by decide)

/-- Claim C7 (amended): along any trace that never uses `removePlayer` —
`undo` is allowed, since it only restores an earlier (itself contiguous)
snapshot — the assigned ranks always form the contiguous set `{1, …, k}`
(new ranks are handed out as `max + 1` exactly when a break first reaches
100); and every state-changing operation other than `newGame`,
`removePlayer` and `undo` preserves each already-assigned rank.  (The
unrestricted claim fails: removing a ranked player leaves a hole in the rank
set, and `undo` reverts rank assignments.) -/
theorem rank_invariant :
    (∀ (ops : List Op) (c : Config), (∀ op ∈ ops, op.isRemove = false) →
        runOps ops initConfig = some c → RankSetContiguous c.gameState.players) ∧
    (∀ (op : Op) (c c2 : Config), op.rankSafe = true → op ≠ Op.newGame →
        step op c = some c2 → ∀ p ∈ c.gameState.players, ∀ r : Nat, p.rank = some r →
          ∃ q ∈ c2.gameState.players, q.id = p.id ∧ q.rank = some r) := by
  constructor
  · intro ops c hrem h
    exact rankInv_runOps inv_initConfig (by decide)
      (fun s hs => absurd hs (List.not_mem_nil s)) hrem h
  · intro op c c2 hsafe hng h p hp r hr
    exact rank_entry_step hsafe hng h hp hr

theorem rank_invariant_witness : RankSetContiguous initConfig.gameState.players :=
  rank_invariant.1 [] initConfig (fun op h => absurd h (List.not_mem_nil op)) rfl

/-- Claim C7, refuting the claim as stated: after a third player is added,
player 1 and player 2 each reach a century (ranks 1 and 2), and player 1 is
then removed, the reachable state's assigned rank set is `{2}`, which is not
`{1, …, k}` for any `k`. -/
theorem rank_contiguity_counterexample :
    ¬ (∀ (ops : List Op) (c : Config), runOps ops initConfig = some c →
        RankSetContiguous c.gameState.players) := by
  intro hclaim
  have h := hclaim [Op.addPlayer, Op.pot 100, Op.select 2, Op.pot 100, Op.removePlayer 1] _ rfl
  exact absurd h (by decide)

/-- Claim C1: with at least two players (with distinct ids) and a resolving
current player at index `i`, a foul of `penaltyValue` adds the penalty to the
score of the player at index `(i + 1) mod players.length`, resets the current
player's break to 0 (leaving that player's score unchanged), leaves every
other player untouched and does not move the turn; the prior state is pushed
onto the history. -/
theorem applyFoul_spec (c : Config) (v i : Nat) (pi : Player)
    (hlen : 2 ≤ c.gameState.players.length)
    (hnd : (c.gameState.players.map Player.id).Nodup)
    (hget : c.gameState.players[i]? = some pi)
    (hcur : pi.id = c.gameState.currentPlayerId) :
    ∃ s2, step (Op.foul v) c = some ⟨s2, c.history ++ [c.gameState]⟩ ∧
      s2.currentPlayerId = c.gameState.currentPlayerId ∧
      s2.players.length = c.gameState.players.length ∧
      ∀ (j : Nat) (pj : Player), c.gameState.players[j]? = some pj →
        s2.players[j]? = some (
          if j = (i + 1) % c.gameState.players.length then { pj with score := pj.score + v }
          else if j = i then { pj with brk := 0 }
          else pj) := by
  obtain ⟨hi, hgetE⟩ := List.getElem?_eq_some_iff.mp hget
  have hlen0 : 0 < c.gameState.players.length := by omega
  have hjsf : jsFindIndex (fun p => p.id == c.gameState.currentPlayerId)
      c.gameState.players = (i : Int) := by
    unfold jsFindIndex
    rw [findIdxOpt_eq_some hnd hget hcur]
  have hcast : ((i : Int) + 1) % (c.gameState.players.length : Int) =
      (((i + 1) % c.gameState.players.length : Nat) : Int) := by
    have h1 : ((i : Int) + 1) = (((i + 1 : Nat)) : Int) := by push_cast; ring
    rw [h1, ← Int.ofNat_emod]
  have hnextlt : (i + 1) % c.gameState.players.length < c.gameState.players.length :=
    Nat.mod_lt _ hlen0
  have hnp : c.gameState.players[(i + 1) % c.gameState.players.length]? =
      some (c.gameState.players[(i + 1) % c.gameState.players.length]) :=
    List.getElem?_eq_getElem hnextlt
  have hne : i ≠ (i + 1) % c.gameState.players.length := by
    by_cases hlast : i + 1 = c.gameState.players.length
    · rw [← hlast, Nat.mod_self (i + 1)]
      omega
    · have : (i + 1) % c.gameState.players.length = i + 1 := Nat.mod_eq_of_lt (by omega)
      omega
  have hidne : pi.id ≠ (c.gameState.players[(i + 1) % c.gameState.players.length]).id := by
    intro heq
    exact hne (id_index_inj hnd hget hnp heq)
  have hHF : handleFoul v c.gameState = some { c.gameState with
      players := c.gameState.players.map (fun p =>
        if p.id = (c.gameState.players[(i + 1) % c.gameState.players.length]).id
        then { p with score := p.score + v }
        else if p.id = c.gameState.currentPlayerId then { p with brk := 0 }
        else p) } := by
    simp only [handleFoul]
    rw [hjsf, hcast, Int.toNat_natCast, hnp]
  refine ⟨{ c.gameState with
      players := c.gameState.players.map (fun p =>
        if p.id = (c.gameState.players[(i + 1) % c.gameState.players.length]).id
        then { p with score := p.score + v }
        else if p.id = c.gameState.currentPlayerId then { p with brk := 0 }
        else p) }, ?_, rfl, by simp, ?_⟩
  · simp only [step]
    rw [hHF]
    rfl
  · intro j pj hpj
    rw [List.getElem?_map, hpj, Option.map_some', Option.some_inj]
    by_cases hj1 : j = (i + 1) % c.gameState.players.length
    · subst hj1
      have hpj2 : pj = c.gameState.players[(i + 1) % c.gameState.players.length] :=
        Option.some_inj.mp (hpj ▸ hnp)
      rw [if_pos rfl, hpj2, if_pos rfl]
    · by_cases hj2 : j = i
      · subst hj2
        have hpj2 : pj = pi := Option.some_inj.mp (hget ▸ hpj).symm
        rw [if_neg hj1, if_pos rfl, hpj2, if_neg hidne, if_pos hcur]
      · have hne1 : pj.id ≠ (c.gameState.players[(i + 1) % c.gameState.players.length]).id := by
          intro heq
          exact hj1 (id_index_inj hnd hpj hnp heq)
        have hne2 : pj.id ≠ c.gameState.currentPlayerId := by
          intro heq
          exact hj2 (id_index_inj hnd hpj hget (heq.trans hcur.symm))
        rw [if_neg hj1, if_neg hj2, if_neg hne1, if_neg hne2]

theorem applyFoul_spec_witness :
    ∃ s2, step (Op.foul 4) initConfig =
        some ⟨s2, initConfig.history ++ [initConfig.gameState]⟩ ∧
      s2.currentPlayerId = initConfig.gameState.currentPlayerId ∧
      s2.players.length = initConfig.gameState.players.length ∧
      ∀ (j : Nat) (pj : Player), initConfig.gameState.players[j]? = some pj →
        s2.players[j]? = some (
          if j = (0 + 1) % initConfig.gameState.players.length
          then { pj with score := pj.score + 4 }
          else if j = 0 then { pj with brk := 0 }
          else pj) :=
  applyFoul_spec initConfig 4 0 initialPlayer1 (by decide) (by decide) rfl rfl

/-- Claim C3: with at least three players (with distinct ids), removing the
player found at index `i` deletes exactly that player and keeps the others in
order; the turn is unchanged unless the removed player was the active one, in
which case the player now occupying index `i mod (new length)` — index `i`
post-removal, wrapping to index 0 when the removed player was last — becomes
active; the prior state is pushed onto the history. -/
theorem removePlayer_spec (c : Config) (i : Nat) (pi : Player)
    (hlen : 3 ≤ c.gameState.players.length)
    (hnd : (c.gameState.players.map Player.id).Nodup)
    (hget : c.gameState.players[i]? = some pi) :
    ∃ s2, step (Op.removePlayer pi.id) c = some ⟨s2, c.history ++ [c.gameState]⟩ ∧
      s2.players = c.gameState.players.eraseIdx i ∧
      (c.gameState.currentPlayerId ≠ pi.id →
        s2.currentPlayerId = c.gameState.currentPlayerId) ∧
      (c.gameState.currentPlayerId = pi.id →
        ∀ q : Player,
          (c.gameState.players.eraseIdx i)[i % (c.gameState.players.length - 1)]? = some q →
          s2.currentPlayerId = q.id) := by
  obtain ⟨hi, hgetE⟩ := List.getElem?_eq_some_iff.mp hget
  have hjsf : jsFindIndex (fun p => p.id == pi.id) c.gameState.players = (i : Int) := by
    unfold jsFindIndex
    rw [findIdxOpt_eq_some hnd hget rfl]
  have hfe : c.gameState.players.filter (fun p => p.id != pi.id) =
      c.gameState.players.eraseIdx i := filter_ne_eq_eraseIdx hnd hget
  have hm : (c.gameState.players.eraseIdx i).length = c.gameState.players.length - 1 := by
    rw [List.length_eraseIdx]
    rw [if_pos hi]
  have hguard : ¬ (c.gameState.players.length ≤ 2) := by omega
  by_cases hc : c.gameState.currentPlayerId = pi.id
  · have hlt : i % (c.gameState.players.length - 1) <
        (c.gameState.players.eraseIdx i).length := by
      rw [hm]
      exact Nat.mod_lt _ (by omega)
    have hq : (c.gameState.players.eraseIdx i)[i % (c.gameState.players.length - 1)]? =
        some ((c.gameState.players.eraseIdx i)[i % (c.gameState.players.length - 1)]) :=
      List.getElem?_eq_getElem hlt
    have hRA : handleRemovePlayerApply pi.id c.gameState = some { c.gameState with
        players := c.gameState.players.eraseIdx i,
        currentPlayerId :=
          ((c.gameState.players.eraseIdx i)[i % (c.gameState.players.length - 1)]).id } := by
      simp only [handleRemovePlayerApply]
      rw [if_pos hc, hjsf, hfe, hm, tmod_natCast,
        if_neg (not_lt.mpr (Int.natCast_nonneg _)), Int.toNat_natCast, hq]
    refine ⟨{ c.gameState with
        players := c.gameState.players.eraseIdx i,
        currentPlayerId :=
          ((c.gameState.players.eraseIdx i)[i % (c.gameState.players.length - 1)]).id },
      ?_, rfl, ?_, ?_⟩
    · simp only [step]
      rw [if_neg hguard, hRA]
      rfl
    · intro hne
      exact absurd hc hne
    · intro _ q hq2
      rw [hq2] at hq
      rw [Option.some_inj.mp hq]
  · have hRA : handleRemovePlayerApply pi.id c.gameState = some { c.gameState with
        players := c.gameState.players.eraseIdx i } := by
      simp only [handleRemovePlayerApply]
      rw [if_neg hc, hfe]
    refine ⟨{ c.gameState with players := c.gameState.players.eraseIdx i }, ?_, rfl, ?_, ?_⟩
    · simp only [step]
      rw [if_neg hguard, hRA]
      rfl
    · intro _
      rfl
    · intro h
      exact absurd h hc

theorem removePlayer_spec_witness :
    ∃ s2, step (Op.removePlayer initialPlayer1.id) threePlayerConfig =
        some ⟨s2, threePlayerConfig.history ++ [threePlayerConfig.gameState]⟩ ∧
      s2.players = threePlayerConfig.gameState.players.eraseIdx 0 ∧
      (threePlayerConfig.gameState.currentPlayerId ≠ initialPlayer1.id →
        s2.currentPlayerId = threePlayerConfig.gameState.currentPlayerId) ∧
      (threePlayerConfig.gameState.currentPlayerId = initialPlayer1.id →
        ∀ q : Player,
          (threePlayerConfig.gameState.players.eraseIdx
            0)[0 % (threePlayerConfig.gameState.players.length - 1)]? = some q →
          s2.currentPlayerId = q.id) :=
  removePlayer_spec threePlayerConfig 0 initialPlayer1 (by decide) (by decide) rfl

end Snooker
